import Mathlib

/-!
Verification of the video-cutter orchestration logic (`app.py`).

The development shallowly embeds the pure decision logic of the program:

* `parse_ts_list` — the timestamp-list parser (`parse_ts_list` in the source),
  modelled character-exactly over `List Char`, including the regular
  expression `\s*(\d+):(\d+)-(\d+):(\d+)\s*` as a deterministic scanner
  `matchTS` and the comma-splitting of Python's `str.split(",")`.
* `download_youtube` — the acquisition step, modelled as a function of an
  environment recording the outcome of each external `yt-dlp` invocation
  and the listing of the shared downloads directory at each observation
  point.
* `cut_and_concat` — the segment extraction / concatenation step, modelled
  as a trace-producing function so that the order of external invocations
  and the lifetime of the concat manifest are observable.
* `run` — the command runner, modelled as the record of the
  `subprocess.run` invocation it performs plus its exit-code handling.

Filenames are modelled as `List Char`; directories are fixed in the source,
so a file is identified by its generated name.
-/

namespace VideoCutter

/-- Characters of a string literal. -/
def str (s : String) : List Char := s.data

/-- ASCII whitespace, the character class of the regex token `\s`
(and of Python's `str.strip()` on ASCII input). -/
def isSpace (c : Char) : Bool :=
  c == ' ' || c == Char.ofNat 9 || c == Char.ofNat 10 ||
  c == Char.ofNat 13 || c == Char.ofNat 11 || c == Char.ofNat 12

/-- A nonempty all-digit string: the language of the regex group `(\d+)`. -/
def isDigitStr (l : List Char) : Bool := !l.isEmpty && l.all Char.isDigit

/-- An all-whitespace (possibly empty) string: the language of `\s*`. -/
def isSpaceStr (l : List Char) : Bool := l.all isSpace

/-- Numeric value of a digit string, as computed by Python's `int()`. -/
def digitsToNat (ds : List Char) : Nat :=
  ds.foldl (fun a c => a * 10 + (c.toNat - 48)) 0

/-- Python `str.strip()`: remove leading and trailing whitespace. -/
def stripChars (s : List Char) : List Char :=
  (((s.dropWhile isSpace).reverse).dropWhile isSpace).reverse

/-- Python `s.split(",")`: split at every comma; always at least one part. -/
def splitComma : List Char → List (List Char)
  | [] => [[]]
  | c :: cs =>
    match splitComma cs with
    | [] => [[]]
    | g :: gs => if c = ',' then [] :: g :: gs else (c :: g) :: gs

/-- Join a first part and further parts with comma separators (inverse of
`splitComma` for comma-free parts); describes an input that is a
comma-separated list of the given parts. -/
def joinComma (c : List Char) : List (List Char) → List Char
  | [] => c
  | c2 :: cs => c ++ ',' :: joinComma c2 cs

/-- Scanner step: the longest digit prefix, as a number, with the rest;
fails when there is no leading digit (regex group `(\d+)`). -/
def readNum (s : List Char) : Option (Nat × List Char) :=
  let ds := s.takeWhile Char.isDigit
  if ds.isEmpty then none else some (digitsToNat ds, s.dropWhile Char.isDigit)

/-- Scanner step: consume one expected literal character. -/
def expectChar (c : Char) : List Char → Option (List Char)
  | [] => none
  | x :: xs => if x = c then some xs else none

/-- Scanner for `(\d+):(\d+)`: a minute and second group. -/
def readMS (s : List Char) : Option (Nat × Nat × List Char) :=
  match readNum s with
  | none => none
  | some (m, r) =>
    match expectChar ':' r with
    | none => none
    | some r2 =>
      match readNum r2 with
      | none => none
      | some (sec, r3) => some (m, sec, r3)

/-- Full match of the source regex `TS_RE = \s*(\d+):(\d+)-(\d+):(\d+)\s*`
(`re.fullmatch`), returning the four numeric groups. The regex is
deterministic: `\d+` cannot cross `:` or `-`, and `\s` is disjoint from
`\d`, so a greedy scanner decides membership exactly. -/
def matchTS (s : List Char) : Option (Nat × Nat × Nat × Nat) :=
  match readMS (s.dropWhile isSpace) with
  | none => none
  | some (m1, s1, r) =>
    match expectChar '-' r with
    | none => none
    | some r2 =>
      match readMS r2 with
      | none => none
      | some (m2, s2, r3) =>
        if (r3.dropWhile isSpace).isEmpty then some (m1, s1, m2, s2) else none

/-- The two failure modes of `parse_ts_list`, carrying the offending part
(the source raises `ValueError` with the part interpolated into the
message: `Bad timestamp: ...` and `End <= start in ...`). -/
inductive ParseErr where
  | invalidFormat : List Char → ParseErr
  | invalidRange : List Char → ParseErr
deriving DecidableEq

/-- One iteration of the parser loop: strip the part, full-match the
regex, convert both timestamps to seconds, and check `end > start`. -/
def parseClause (part : List Char) : Except ParseErr (Nat × Nat) :=
  match matchTS (stripChars part) with
  | none => Except.error (ParseErr.invalidFormat part)
  | some (m1, s1, m2, s2) =>
    if m2 * 60 + s2 ≤ m1 * 60 + s1 then Except.error (ParseErr.invalidRange part)
    else Except.ok (m1 * 60 + s1, m2 * 60 + s2)

/-- The parser loop over the comma-parts: the first failing part aborts. -/
def parseClauses : List (List Char) → Except ParseErr (List (Nat × Nat))
  | [] => Except.ok []
  | p :: ps =>
    match parseClause p with
    | Except.error e => Except.error e
    | Except.ok r =>
      match parseClauses ps with
      | Except.error e => Except.error e
      | Except.ok rs => Except.ok (r :: rs)

/-- `parse_ts_list` from the source: split the input at commas and parse
each part in order. -/
def parse_ts_list (s : List Char) : Except ParseErr (List (Nat × Nat)) :=
  parseClauses (splitComma s)

/-- The language of the clause pattern `\s*(\d+):(\d+)-(\d+):(\d+)\s*`,
stated from the spec's words: optional surrounding whitespace, four
nonempty digit groups separated by `:`, `-`, `:`, whose numeric values
are the four captured numbers. -/
def MatchesTS (s : List Char) (m1 s1 m2 s2 : Nat) : Prop :=
  ∃ w1 d1 d2 d3 d4 w2 : List Char,
    isSpaceStr w1 = true ∧ isDigitStr d1 = true ∧ isDigitStr d2 = true ∧
    isDigitStr d3 = true ∧ isDigitStr d4 = true ∧ isSpaceStr w2 = true ∧
    s = w1 ++ d1 ++ [':'] ++ d2 ++ ['-'] ++ d3 ++ [':'] ++ d4 ++ w2 ∧
    m1 = digitsToNat d1 ∧ s1 = digitsToNat d2 ∧ m2 = digitsToNat d3 ∧ s2 = digitsToNat d4

/-- A part whose stripped form matches the clause pattern. -/
def clauseFormatOK (c : List Char) : Prop :=
  ∃ m1 s1 m2 s2 : Nat, MatchesTS (stripChars c) m1 s1 m2 s2

/-- A part whose stripped form matches the clause pattern with a
strictly increasing range. -/
def clauseOK (c : List Char) : Prop :=
  ∃ m1 s1 m2 s2 : Nat, MatchesTS (stripChars c) m1 s1 m2 s2 ∧
    m1 * 60 + s1 < m2 * 60 + s2

/-! ## Generated filenames

The source generates names with `uuid.uuid4().hex[:8]` tokens for cut
segments, the concat manifest and the final artifact, but names the
acquired download by yt-dlp's output template `%(id)s.%(ext)s`.  A run's
token draws are modelled as a function from draw index to token. -/

/-- Decimal digits of a number, as interpolated by Python f-strings. -/
def natChars (n : Nat) : List Char := Nat.toDigits 10 n

/-- Name of the acquired source file: yt-dlp's `-o` template
`%(id)s.%(ext)s` — the video id and extension, no run-specific token. -/
def downloadName (vid ext : List Char) : List Char := vid ++ '.' :: ext

/-- Name of the i-th cut segment: `cut_{uuid4().hex[:8]}_{i}.mp4`. -/
def cutName (tok : List Char) (i : Nat) : List Char :=
  str ("cut_") ++ tok ++ '_' :: natChars i ++ str (".mp4")

/-- Name of the concat manifest: `concat_{uuid4().hex[:8]}.txt`. -/
def concatName (tok : List Char) : List Char :=
  str ("concat_") ++ tok ++ str (".txt")

/-- Name of the final artifact: `clip_{uuid4().hex[:8]}.mp4`. -/
def finalName (tok : List Char) : List Char :=
  str ("clip_") ++ tok ++ str (".mp4")

/-- All filenames one pipeline run generates for a video with id `vid`,
extension `ext`, `n` segments and token draws `tok`: the acquired source
file, the `n` cut segments, the concat manifest, the final artifact. -/
def runPaths (vid ext : List Char) (tok : Nat → List Char) (n : Nat) : List (List Char) :=
  downloadName vid ext ::
    ((List.range n).map (fun i => cutName (tok i) i) ++
      [concatName (tok n), finalName (tok (n + 1))])

/-! ## Acquisition step (`download_youtube`)

The external `yt-dlp` invocations and the shared `downloads/` directory
are the environment: each attempt either exits zero (`none`) or raises
`RuntimeError(stderr)` (`some stderr`), and the directory listing is
observed after each attempt.  A directory entry carries a name, an
mtime, and a size (the source reads only name and mtime; the size is
ghost state that lets emptiness be discussed). -/

/-- Whether the first list is a prefix of the second. -/
def isPrefixList : List Char → List Char → Bool
  | [], _ => true
  | _ :: _, [] => false
  | a :: as, b :: bs => a == b && isPrefixList as bs

/-- Python's `in` on strings: substring containment. -/
def containsStr (needle : List Char) : List Char → Bool
  | [] => needle.isEmpty
  | c :: t => isPrefixList needle (c :: t) || containsStr needle t

/-- A name matched by the glob `*.mp4`: ends with `.mp4`. -/
def isMp4 (name : List Char) : Bool :=
  isPrefixList (str (".mp4")).reverse name.reverse

/-- An entry of a directory listing. -/
structure FileEntry where
  name : List Char
  mtime : Nat
  size : Nat
deriving DecidableEq

/-- Fold step for `sorted(key=mtime, reverse=True)[0]`: keep the current
candidate unless the next entry is strictly newer (Python's sort is
stable, so among equal mtimes the earliest-listed entry wins). -/
def pickLatest (best : Option FileEntry) (f : FileEntry) : Option FileEntry :=
  match best with
  | none => some f
  | some b => if b.mtime < f.mtime then some f else some b

/-- `sorted(DL_DIR.glob("*.mp4"), key=mtime, reverse=True)` then `[0]`:
the first-listed most-recently-modified `.mp4`, if any. -/
def latestMp4 (l : List FileEntry) : Option FileEntry :=
  (l.filter (fun f => isMp4 f.name)).foldl pickLatest none

/-- Environment of one `download_youtube` call: outcome of the
with-cookies attempt, the downloads listing observed after it, outcome
of the no-cookies attempt, and the listing observed after that. -/
structure DlEnv where
  attempt1 : Option (List Char)
  listing1 : List FileEntry
  attempt2 : Option (List Char)
  listing2 : List FileEntry

/-- Message of the `FileNotFoundError` raised when no `.mp4` appeared. -/
def noMp4Msg : List Char := str ("Download failed: no mp4 created.")

/-- Rate-limit message (`429` / `Too Many Requests` classification). -/
def rateMsg : List Char :=
  str ("YouTube is rate limiting requests. Please try again in a few minutes or use a different video.")

/-- Content-unavailable message. -/
def unavailMsg : List Char :=
  str ("This video is not available (private, deleted, or region-restricted). Please try a different video.")

/-- Authentication-required message. -/
def authMsg : List Char :=
  str ("YouTube requires authentication for this video. Please try a public video or check your cookies.")

/-- The aggregated failure message raised after the no-cookies fallback
also fails; it interpolates only `error_msg`, the first attempt's error. -/
def exhaustedMsg (e : List Char) : List Char :=
  str ("Unable to download video. Error: ") ++ e ++
    str (". Please try a different video or check if the URL is correct.")

/-- Whether the first attempt's error message matches one of the three
classified patterns (rate-limited / unavailable / auth-required). -/
def classifyMatches (e : List Char) : Bool :=
  containsStr (str ("429")) e || containsStr (str ("Too Many Requests")) e ||
  containsStr (str ("content isn't available")) e ||
  containsStr (str ("This content isn't available")) e ||
  containsStr (str ("Sign in to confirm you're not a bot")) e

/-- The `except` block of `download_youtube`: classify the first
attempt's error; when unclassified, retry without cookies and on any
second failure raise the aggregated message built from `error_msg`. -/
def fallback (env : DlEnv) (error_msg : List Char) : Except (List Char) FileEntry :=
  if containsStr (str ("429")) error_msg ||
      containsStr (str ("Too Many Requests")) error_msg then
    Except.error rateMsg
  else if containsStr (str ("content isn't available")) error_msg ||
      containsStr (str ("This content isn't available")) error_msg then
    Except.error unavailMsg
  else if containsStr (str ("Sign in to confirm you're not a bot")) error_msg then
    Except.error authMsg
  else
    match env.attempt2 with
    | some _ => Except.error (exhaustedMsg error_msg)
    | none =>
      match latestMp4 env.listing2 with
      | some f => Except.ok f
      | none => Except.error (exhaustedMsg error_msg)

/-- `download_youtube` from the source: run yt-dlp with cookies; when it
exits zero, return the newest `.mp4` of the shared downloads directory
(raising the no-mp4 error into the same `except` block when the glob is
empty); otherwise classify / fall back. -/
def download_youtube (env : DlEnv) : Except (List Char) FileEntry :=
  match env.attempt1 with
  | some e => fallback env e
  | none =>
    match latestMp4 env.listing1 with
    | some f => Except.ok f
    | none => fallback env noMp4Msg

/-! ## Cut-and-concat step (`cut_and_concat`)

The step is modelled as a trace of the externally visible actions it
performs — ffmpeg extraction runs, the manifest write, the ffmpeg concat
run — plus its return value.  A file-deletion action is part of the
event vocabulary so that the lifetime of the manifest is expressible;
the source never performs one. -/

/-- Externally visible actions of the cut/concat step. -/
inductive Event where
  | extract : Nat → Nat → List Char → List Char → Event
  | writeManifest : List Char → List Char → Event
  | concatRun : List Char → List Char → Event
  | deleteFile : List Char → Event
deriving DecidableEq

/-- Outcomes of the external ffmpeg invocations: whether the i-th
extraction exits zero (with its stderr otherwise), and likewise for the
concat run. -/
structure CutEnv where
  extractOk : Nat → Bool
  extractErr : Nat → List Char
  concatOk : Bool
  concatErr : List Char

/-- Apostrophe, as quoted into manifest lines by the source f-string. -/
def squote : Char := Char.ofNat 39

/-- Newline separating manifest lines. -/
def newlineC : Char := Char.ofNat 10

/-- One manifest line `file '<path>'`. -/
def manifestLine (p : List Char) : List Char :=
  str ("file ") ++ squote :: p ++ [squote]

/-- `"\n".join(f"file '{p}'" for p in cuts)`. -/
def manifestContents : List (List Char) → List Char
  | [] => []
  | [p] => manifestLine p
  | p :: ps => manifestLine p ++ newlineC :: manifestContents ps

/-- The extraction loop: one ffmpeg run per segment, in order, each
writing a freshly named cut file; a non-zero exit raises immediately. -/
def cutLoop (src : List Char) (tok : Nat → List Char) (env : CutEnv) :
    List (Nat × Nat) → Nat → List Event × Except (List Char) (List (List Char))
  | [], _ => ([], Except.ok [])
  | (st, en) :: rest, i =>
    let out := cutName (tok i) i
    if env.extractOk i then
      let r := cutLoop src tok env rest (i + 1)
      (Event.extract st en src out :: r.1, r.2.map (fun cs => out :: cs))
    else
      ([Event.extract st en src out], Except.error (env.extractErr i))

/-- `cut_and_concat` from the source: extract every segment, write the
manifest listing the cut paths, run the concat, and return the final
artifact's name; the manifest is written before the concat run and is
never deleted. -/
def cut_and_concat (src : List Char) (segments : List (Nat × Nat))
    (tok : Nat → List Char) (env : CutEnv) :
    List Event × Except (List Char) (List Char) :=
  let r := cutLoop src tok env segments 0
  match r.2 with
  | Except.error e => (r.1, Except.error e)
  | Except.ok cuts =>
    let mpath := concatName (tok segments.length)
    let fpath := finalName (tok (segments.length + 1))
    let tr := r.1 ++ [Event.writeManifest mpath (manifestContents cuts),
                      Event.concatRun mpath fpath]
    if env.concatOk then (tr, Except.ok fpath) else (tr, Except.error env.concatErr)

/-- Effect of one trace action on the existence of the file named `p`. -/
def fileStep (p : List Char) (st : Bool) (ev : Event) : Bool :=
  match ev with
  | Event.writeManifest q _ => if q = p then true else st
  | Event.deleteFile q => if q = p then false else st
  | _ => st

/-- Whether a file with the given name exists after the trace ran,
starting from a state in which it did not exist. -/
def existsAfter (tr : List Event) (p : List Char) : Bool :=
  tr.foldl (fileStep p) false

/-- The extraction invocations of a trace, in order:
(start, end, source, output). -/
def extractEvents (tr : List Event) : List (Nat × Nat × List Char × List Char) :=
  tr.filterMap fun ev =>
    match ev with
    | Event.extract a b s o => some (a, b, s, o)
    | _ => none

/-- The manifest writes of a trace, in order: (path, contents). -/
def manifestsOf (tr : List Event) : List (List Char × List Char) :=
  tr.filterMap fun ev =>
    match ev with
    | Event.writeManifest p c => some (p, c)
    | _ => none

/-! ## Command runner (`run`) -/

/-- The record of the `subprocess.run` call performed by `run`: the
command line handed to `shlex.split`, whether stderr is captured
(`stderr=subprocess.PIPE`), and the timeout argument — `subprocess.run`
defaults `timeout` to `None` and `run` passes no other value. -/
structure Invocation where
  cmdLine : List Char
  stderrPiped : Bool
  timeoutSeconds : Option Nat
deriving DecidableEq

/-- The invocation `run` performs for a given command string. -/
def run_call (cmd : List Char) : Invocation :=
  { cmdLine := cmd, stderrPiped := true, timeoutSeconds := none }

/-- The result `run` reports once the process exits: non-zero exit
raises the captured stderr, zero exit returns normally. -/
def runResult (exitCode : Nat) (stderr : List Char) : Except (List Char) Unit :=
  if exitCode ≠ 0 then Except.error stderr else Except.ok ()

/-! ## Concrete instances used by counterexamples and witnesses -/

/-- A token-draw assignment that always yields `aaaaaaaa`. -/
def tokA : Nat → List Char := fun _ => str ("aaaaaaaa")

/-- A token-draw assignment that always yields `bbbbbbbb`. -/
def tokB : Nat → List Char := fun _ => str ("bbbbbbbb")

/-- An acquisition environment in which both yt-dlp attempts exit
non-zero with unclassified errors `boom1` and `boom2`. -/
def envBoth : DlEnv :=
  { attempt1 := some (str ("boom1")), listing1 := [],
    attempt2 := some (str ("boom2")), listing2 := [] }

/-- A downloads listing holding a single zero-byte `v.mp4`. -/
def envEmptyFile : DlEnv :=
  { attempt1 := none, listing1 := [⟨str ("v.mp4"), 10, 0⟩],
    attempt2 := none, listing2 := [] }

/-- A downloads listing in which a pre-existing `old.mp4` is newer than
the freshly produced `new.mp4`. -/
def envPreexisting : DlEnv :=
  { attempt1 := none,
    listing1 := [⟨str ("old.mp4"), 999, 7⟩, ⟨str ("new.mp4"), 500, 9⟩],
    attempt2 := none, listing2 := [] }

/-- A cut environment in which every external invocation exits zero. -/
def cutEnvAllOk : CutEnv :=
  { extractOk := fun _ => true, extractErr := fun _ => [],
    concatOk := true, concatErr := [] }

/-- A cut environment in which extraction succeeds and the concat run
exits non-zero with stderr `join failed`. -/
def cutEnvConcatFails : CutEnv :=
  { extractOk := fun _ => true, extractErr := fun _ => [],
    concatOk := false, concatErr := str ("join failed") }

/-! ## Character-class facts -/

theorem isSpace_not_digit {c : Char} (h : isSpace c = true) : c.isDigit = false := by
  have h' := h
  rw [isSpace] at h'
  simp only [Bool.or_eq_true, beq_iff_eq] at h'
  rcases h' with ((((rfl | rfl) | rfl) | rfl) | rfl) | rfl <;> decide

theorem digit_not_isSpace {c : Char} (h : c.isDigit = true) : isSpace c = false := by
  cases hs : isSpace c
  · rfl
  · rw [isSpace_not_digit hs] at h
    exact absurd h (by simp)

/-! ## Scanner soundness and completeness

`matchTS` decides membership in the language `MatchesTS` of the regex
`\s*(\d+):(\d+)-(\d+):(\d+)\s*`. -/

theorem readNum_complete {d rest : List Char} (hd : isDigitStr d = true)
    (hr : ∀ c, rest.head? = some c → c.isDigit = false) :
    readNum (d ++ rest) = some (digitsToNat d, rest) := by
  have hne : d.isEmpty = false := by
    cases hde : d.isEmpty
    · rfl
    · rw [isDigitStr, hde] at hd
      simp at hd
  have hall : ∀ a ∈ d, a.isDigit := by
    intro a ha
    have := (by rw [isDigitStr, hne] at hd; simpa using hd : d.all Char.isDigit = true)
    exact (List.all_eq_true.mp this) a ha
  have htr : rest.takeWhile Char.isDigit = [] := by
    cases rest with
    | nil => rfl
    | cons c t => exact List.takeWhile_cons_of_neg (by simp [hr c rfl])
  have hdr : rest.dropWhile Char.isDigit = rest := by
    cases rest with
    | nil => rfl
    | cons c t => exact List.dropWhile_cons_of_neg (by simp [hr c rfl])
  have ht : (d ++ rest).takeWhile Char.isDigit = d := by
    rw [List.takeWhile_append_of_pos hall, htr, List.append_nil]
  have hdp : (d ++ rest).dropWhile Char.isDigit = rest := by
    rw [List.dropWhile_append_of_pos hall, hdr]
  have hemp : d.isEmpty = false := hne
  unfold readNum
  simp only [ht, hdp, hemp]
  simp

theorem readNum_sound {s : List Char} {m : Nat} {r : List Char}
    (h : readNum s = some (m, r)) :
    ∃ d, isDigitStr d = true ∧ s = d ++ r ∧ m = digitsToNat d ∧
      (∀ c, r.head? = some c → c.isDigit = false) := by
  unfold readNum at h
  by_cases he : (s.takeWhile Char.isDigit).isEmpty
  · simp [he] at h
  · simp only [he, if_false, Bool.false_eq_true] at h
    obtain ⟨hm, hr⟩ : digitsToNat (s.takeWhile Char.isDigit) = m ∧
        s.dropWhile Char.isDigit = r := by
      simpa using h
    refine ⟨s.takeWhile Char.isDigit, ?_, ?_, hm.symm, ?_⟩
    · rw [isDigitStr]
      have : (s.takeWhile Char.isDigit).all Char.isDigit = true :=
        List.all_eq_true.mpr (fun x hx => List.mem_takeWhile_imp hx)
      rw [this]
      cases hee : (s.takeWhile Char.isDigit).isEmpty
      · rfl
      · exact absurd hee he
    · rw [← hr, List.takeWhile_append_dropWhile]
    · intro c hc
      have hd := List.head?_dropWhile_not Char.isDigit s
      rw [hr, hc] at hd
      exact hd

theorem expectChar_sound {c : Char} {s r : List Char}
    (h : expectChar c s = some r) : s = c :: r := by
  cases s with
  | nil => simp [expectChar] at h
  | cons x xs =>
    by_cases hx : x = c
    · subst hx
      simp [expectChar] at h
      rw [h]
    · simp [expectChar, hx] at h

theorem readMS_complete {d1 d2 rest : List Char}
    (h1 : isDigitStr d1 = true) (h2 : isDigitStr d2 = true)
    (hr : ∀ c, rest.head? = some c → c.isDigit = false) :
    readMS (d1 ++ (':' :: (d2 ++ rest))) =
      some (digitsToNat d1, digitsToNat d2, rest) := by
  unfold readMS
  rw [readNum_complete h1 (by intro c hc; simp at hc; rw [← hc]; decide)]
  dsimp only
  have hx : expectChar ':' (':' :: (d2 ++ rest)) = some (d2 ++ rest) := by
    simp [expectChar]
  rw [hx]
  dsimp only
  rw [readNum_complete h2 hr]

theorem readMS_sound {s : List Char} {m n : Nat} {r : List Char}
    (h : readMS s = some (m, n, r)) :
    ∃ d1 d2, isDigitStr d1 = true ∧ isDigitStr d2 = true ∧
      s = d1 ++ (':' :: (d2 ++ r)) ∧ m = digitsToNat d1 ∧ n = digitsToNat d2 ∧
      (∀ c, r.head? = some c → c.isDigit = false) := by
  unfold readMS at h
  cases h1 : readNum s with
  | none => rw [h1] at h; exact absurd h (by simp)
  | some p =>
    obtain ⟨m', r1⟩ := p
    rw [h1] at h
    dsimp only at h
    cases h2 : expectChar ':' r1 with
    | none => rw [h2] at h; exact absurd h (by simp)
    | some r2 =>
      rw [h2] at h
      dsimp only at h
      cases h3 : readNum r2 with
      | none => rw [h3] at h; exact absurd h (by simp)
      | some q =>
        obtain ⟨n', r3⟩ := q
        rw [h3] at h
        obtain ⟨hm, hn, hr⟩ : m' = m ∧ n' = n ∧ r3 = r := by simpa using h
        subst hm hn hr
        obtain ⟨da, hda, hsa, hma, _⟩ := readNum_sound h1
        obtain ⟨db, hdb, hsb, hmb, hhb⟩ := readNum_sound h3
        refine ⟨da, db, hda, hdb, ?_, hma, hmb, hhb⟩
        rw [hsa, expectChar_sound h2, hsb]

theorem isDigitStr_mem {l : List Char} (h : isDigitStr l = true) :
    ∀ a ∈ l, a.isDigit = true := by
  intro a ha
  have h2 : l.all Char.isDigit = true := by
    rw [isDigitStr, Bool.and_eq_true] at h
    exact h.2
  exact List.all_eq_true.mp h2 a ha

theorem isSpaceStr_mem {l : List Char} (h : isSpaceStr l = true) :
    ∀ a ∈ l, isSpace a = true := by
  intro a ha
  exact List.all_eq_true.mp (by rwa [isSpaceStr] at h) a ha

theorem dropWhile_isSpace_digit_head {d rest : List Char} (hd : isDigitStr d = true) :
    (d ++ rest).dropWhile isSpace = d ++ rest := by
  cases d with
  | nil => simp [isDigitStr] at hd
  | cons c t =>
    rw [List.cons_append]
    exact List.dropWhile_cons_of_neg
      (by simp [digit_not_isSpace (isDigitStr_mem hd c (List.mem_cons_self c t))])

theorem matchTS_complete {s : List Char} {m1 s1 m2 s2 : Nat}
    (h : MatchesTS s m1 s1 m2 s2) : matchTS s = some (m1, s1, m2, s2) := by
  obtain ⟨w1, d1, d2, d3, d4, w2, hw1, hd1, hd2, hd3, hd4, hw2, hs, hm1, hs1, hm2, hs2⟩ := h
  subst hm1 hs1 hm2 hs2
  have hs' : s = w1 ++ (d1 ++ (':' :: (d2 ++ ('-' :: (d3 ++ (':' :: (d4 ++ w2))))))) := by
    rw [hs]; simp
  rw [hs']
  unfold matchTS
  rw [List.dropWhile_append_of_pos (isSpaceStr_mem hw1), dropWhile_isSpace_digit_head hd1]
  rw [readMS_complete hd1 hd2 (by intro c hc; simp at hc; rw [← hc]; decide)]
  dsimp only
  have hx : expectChar '-' ('-' :: (d3 ++ (':' :: (d4 ++ w2)))) =
      some (d3 ++ (':' :: (d4 ++ w2))) := by simp [expectChar]
  rw [hx]
  dsimp only
  rw [readMS_complete hd3 hd4 ?hw2h]
  case hw2h =>
    intro c hc
    cases w2 with
    | nil => simp at hc
    | cons x t =>
      have hx2 : x = c := by simpa using hc
      subst hx2
      exact isSpace_not_digit (isSpaceStr_mem hw2 x (List.mem_cons_self x t))
  dsimp only
  rw [List.dropWhile_eq_nil_iff.mpr (fun x hx => isSpaceStr_mem hw2 x hx)]
  simp

theorem matchTS_sound {s : List Char} {m1 s1 m2 s2 : Nat}
    (h : matchTS s = some (m1, s1, m2, s2)) : MatchesTS s m1 s1 m2 s2 := by
  unfold matchTS at h
  cases h1 : readMS (s.dropWhile isSpace) with
  | none => rw [h1] at h; exact absurd h (by simp)
  | some p =>
    obtain ⟨m1', s1', r⟩ := p
    rw [h1] at h
    dsimp only at h
    cases h2 : expectChar '-' r with
    | none => rw [h2] at h; exact absurd h (by simp)
    | some r2 =>
      rw [h2] at h
      dsimp only at h
      cases h3 : readMS r2 with
      | none => rw [h3] at h; exact absurd h (by simp)
      | some q =>
        obtain ⟨m2', s2', r3⟩ := q
        rw [h3] at h
        dsimp only at h
        by_cases hemp : (r3.dropWhile isSpace).isEmpty
        · rw [if_pos hemp] at h
          obtain ⟨e1, e2, e3, e4⟩ : m1' = m1 ∧ s1' = s1 ∧ m2' = m2 ∧ s2' = s2 := by
            simpa using h
          subst e1 e2 e3 e4
          obtain ⟨da, db, hda, hdb, hr1, hma, hsa, _⟩ := readMS_sound h1
          obtain ⟨dc, dd, hdc, hdd, hr2, hmc, hsd, _⟩ := readMS_sound h3
          have hw2 : isSpaceStr r3 = true := by
            rw [isSpaceStr]
            refine List.all_eq_true.mpr (List.dropWhile_eq_nil_iff.mp ?_)
            simpa [List.isEmpty_iff] using hemp
          refine ⟨s.takeWhile isSpace, da, db, dc, dd, r3,
            ?_, hda, hdb, hdc, hdd, hw2, ?_, hma, hsa, hmc, hsd⟩
          · rw [isSpaceStr]
            exact List.all_eq_true.mpr (fun x hx => List.mem_takeWhile_imp hx)
          · conv_lhs => rw [← List.takeWhile_append_dropWhile isSpace s]
            rw [hr1, expectChar_sound h2, hr2]
            simp
        · rw [if_neg hemp] at h
          exact absurd h (by simp)

theorem matchTS_iff {s : List Char} {m1 s1 m2 s2 : Nat} :
    matchTS s = some (m1, s1, m2, s2) ↔ MatchesTS s m1 s1 m2 s2 :=
  ⟨matchTS_sound, matchTS_complete⟩

/-! ## Stripping and comma-splitting -/

theorem strip_decomp (s : List Char) :
    ∃ w1 w2, isSpaceStr w1 = true ∧ isSpaceStr w2 = true ∧
      s = w1 ++ stripChars s ++ w2 := by
  refine ⟨s.takeWhile isSpace,
    ((s.dropWhile isSpace).reverse.takeWhile isSpace).reverse, ?_, ?_, ?_⟩
  · rw [isSpaceStr]
    exact List.all_eq_true.mpr (fun x hx => List.mem_takeWhile_imp hx)
  · rw [isSpaceStr]
    refine List.all_eq_true.mpr (fun x hx => ?_)
    exact List.mem_takeWhile_imp (List.mem_reverse.mp hx)
  · rw [stripChars]
    conv_lhs => rw [← List.takeWhile_append_dropWhile isSpace s]
    conv_lhs =>
      rw [show s.dropWhile isSpace = ((s.dropWhile isSpace).reverse).reverse from
        (List.reverse_reverse _).symm]
    conv_lhs =>
      rw [show (s.dropWhile isSpace).reverse =
        (s.dropWhile isSpace).reverse.takeWhile isSpace ++
          (s.dropWhile isSpace).reverse.dropWhile isSpace from
        (List.takeWhile_append_dropWhile isSpace _).symm]
    rw [List.reverse_append]
    simp

theorem MatchesTS_no_comma {s : List Char} {m1 s1 m2 s2 : Nat}
    (h : MatchesTS s m1 s1 m2 s2) : ',' ∉ s := by
  obtain ⟨w1, d1, d2, d3, d4, w2, hw1, hd1, hd2, hd3, hd4, hw2, hs, _, _, _, _⟩ := h
  subst hs
  intro hmem
  simp only [List.mem_append, List.mem_singleton, List.mem_cons] at hmem
  have hsp : isSpace ',' = false := by decide
  have hdg : Char.isDigit ',' = false := by decide
  rcases hmem with ((((((((hw | hd) | hc) | hd') | hc') | hd'') | hc'') | hd''') | hw')
  · rw [isSpaceStr_mem hw1 ',' hw] at hsp; exact absurd hsp (by simp)
  · rw [isDigitStr_mem hd1 ',' hd] at hdg; exact absurd hdg (by simp)
  · exact absurd hc (by decide)
  · rw [isDigitStr_mem hd2 ',' hd'] at hdg; exact absurd hdg (by simp)
  · exact absurd hc' (by decide)
  · rw [isDigitStr_mem hd3 ',' hd''] at hdg; exact absurd hdg (by simp)
  · exact absurd hc'' (by decide)
  · rw [isDigitStr_mem hd4 ',' hd'''] at hdg; exact absurd hdg (by simp)
  · rw [isSpaceStr_mem hw2 ',' hw'] at hsp; exact absurd hsp (by simp)

theorem clause_no_comma {c : List Char} (h : clauseFormatOK c) : ',' ∉ c := by
  obtain ⟨m1, s1, m2, s2, hm⟩ := h
  obtain ⟨w1, w2, hw1, hw2, hdec⟩ := strip_decomp c
  rw [hdec]
  intro hmem
  have hsp : isSpace ',' = false := by decide
  simp only [List.mem_append] at hmem
  rcases hmem with (hw | hs) | hw'
  · rw [isSpaceStr_mem hw1 ',' hw] at hsp; exact absurd hsp (by simp)
  · exact MatchesTS_no_comma hm hs
  · rw [isSpaceStr_mem hw2 ',' hw'] at hsp; exact absurd hsp (by simp)

theorem splitComma_ne_nil (s : List Char) : splitComma s ≠ [] := by
  cases s with
  | nil => simp [splitComma]
  | cons c cs =>
    unfold splitComma
    cases h : splitComma cs with
    | nil => simp
    | cons g gs => by_cases hc : c = ',' <;> simp [hc]

theorem splitComma_no_comma {c : List Char} (h : ',' ∉ c) : splitComma c = [c] := by
  induction c with
  | nil => rfl
  | cons x xs ih =>
    have hx : ¬x = ',' := by
      intro e
      exact h (e ▸ List.mem_cons_self x xs)
    have hxs : ',' ∉ xs := fun m => h (List.mem_cons_of_mem x m)
    unfold splitComma
    rw [ih hxs]
    simp [hx]

theorem splitComma_append_comma (c t : List Char) (h : ',' ∉ c) :
    splitComma (c ++ ',' :: t) = c :: splitComma t := by
  induction c with
  | nil =>
    obtain ⟨g, gs, hgs⟩ : ∃ g gs, splitComma t = g :: gs := by
      cases hh : splitComma t with
      | nil => exact absurd hh (splitComma_ne_nil t)
      | cons g gs => exact ⟨g, gs, rfl⟩
    rw [List.nil_append]
    conv_lhs => rw [splitComma]
    rw [hgs]
    simp
  | cons x xs ih =>
    have hx : ¬x = ',' := by
      intro e
      exact h (e ▸ List.mem_cons_self x xs)
    have hxs : ',' ∉ xs := fun m => h (List.mem_cons_of_mem x m)
    rw [List.cons_append]
    conv_lhs => rw [splitComma]
    rw [ih hxs]
    simp [hx]

theorem splitComma_joinComma (c : List Char) (cs : List (List Char))
    (h : ∀ p ∈ c :: cs, ',' ∉ p) :
    splitComma (joinComma c cs) = c :: cs := by
  induction cs generalizing c with
  | nil => exact splitComma_no_comma (h c (List.mem_cons_self c []))
  | cons c2 cs ih =>
    rw [joinComma]
    rw [splitComma_append_comma c (joinComma c2 cs) (h c (List.mem_cons_self c _))]
    rw [ih c2 (fun p hp => h p (List.mem_cons_of_mem c hp))]

/-! ## Characterization of `parseClause` -/

theorem parseClause_ok_of {c : List Char} {m1 s1 m2 s2 : Nat}
    (hM : MatchesTS (stripChars c) m1 s1 m2 s2)
    (hlt : m1 * 60 + s1 < m2 * 60 + s2) :
    parseClause c = Except.ok (m1 * 60 + s1, m2 * 60 + s2) := by
  unfold parseClause
  rw [matchTS_complete hM]
  dsimp only
  rw [if_neg (by omega)]

theorem parseClause_ok_elim {c : List Char} {r : Nat × Nat}
    (h : parseClause c = Except.ok r) :
    ∃ m1 s1 m2 s2, MatchesTS (stripChars c) m1 s1 m2 s2 ∧
      m1 * 60 + s1 < m2 * 60 + s2 ∧ r = (m1 * 60 + s1, m2 * 60 + s2) := by
  unfold parseClause at h
  cases hm : matchTS (stripChars c) with
  | none => rw [hm] at h; exact absurd h (by simp)
  | some q =>
    obtain ⟨m1, s1, m2, s2⟩ := q
    rw [hm] at h
    dsimp only at h
    by_cases hle : m2 * 60 + s2 ≤ m1 * 60 + s1
    · rw [if_pos hle] at h
      exact absurd h (by simp)
    · rw [if_neg hle] at h
      exact ⟨m1, s1, m2, s2, matchTS_sound hm, by omega, by simpa using h.symm⟩

theorem parseClause_ok_of_clauseOK {c : List Char} (h : clauseOK c) :
    ∃ r, parseClause c = Except.ok r := by
  obtain ⟨m1, s1, m2, s2, hM, hlt⟩ := h
  exact ⟨_, parseClause_ok_of hM hlt⟩

theorem clauseOK_of_parseClause_ok {c : List Char} {r : Nat × Nat}
    (h : parseClause c = Except.ok r) : clauseOK c := by
  obtain ⟨m1, s1, m2, s2, hM, hlt, _⟩ := parseClause_ok_elim h
  exact ⟨m1, s1, m2, s2, hM, hlt⟩

theorem parseClause_fmt_of {c : List Char} (h : ¬ clauseFormatOK c) :
    parseClause c = Except.error (ParseErr.invalidFormat c) := by
  unfold parseClause
  cases hm : matchTS (stripChars c) with
  | none => rfl
  | some q =>
    obtain ⟨m1, s1, m2, s2⟩ := q
    exact absurd ⟨m1, s1, m2, s2, matchTS_sound hm⟩ h

theorem parseClause_fmt_elim {c p : List Char}
    (h : parseClause c = Except.error (ParseErr.invalidFormat p)) :
    p = c ∧ ¬ clauseFormatOK c := by
  unfold parseClause at h
  cases hm : matchTS (stripChars c) with
  | none =>
    rw [hm] at h
    dsimp only at h
    have hcp : ParseErr.invalidFormat c = ParseErr.invalidFormat p := by
      simpa using h
    refine ⟨?_, ?_⟩
    · injection hcp with e
      exact e.symm
    · rintro ⟨m1, s1, m2, s2, hM⟩
      rw [matchTS_complete hM] at hm
      exact absurd hm (by simp)
  | some q =>
    obtain ⟨m1, s1, m2, s2⟩ := q
    rw [hm] at h
    dsimp only at h
    by_cases hle : m2 * 60 + s2 ≤ m1 * 60 + s1
    · rw [if_pos hle] at h
      have h2 : ParseErr.invalidRange c = ParseErr.invalidFormat p := by
        simp only [Except.error.injEq] at h
        exact h
      exact absurd h2 (by simp)
    · rw [if_neg hle] at h
      exact absurd h (by simp)

theorem parseClause_rng_of {c : List Char} {m1 s1 m2 s2 : Nat}
    (hM : MatchesTS (stripChars c) m1 s1 m2 s2)
    (hge : m2 * 60 + s2 ≤ m1 * 60 + s1) :
    parseClause c = Except.error (ParseErr.invalidRange c) := by
  unfold parseClause
  rw [matchTS_complete hM]
  dsimp only
  rw [if_pos hge]

theorem parseClause_rng_elim {c p : List Char}
    (h : parseClause c = Except.error (ParseErr.invalidRange p)) :
    p = c ∧ clauseFormatOK c ∧ ¬ clauseOK c := by
  unfold parseClause at h
  cases hm : matchTS (stripChars c) with
  | none =>
    rw [hm] at h
    dsimp only at h
    have h2 : ParseErr.invalidFormat c = ParseErr.invalidRange p := by
      simp only [Except.error.injEq] at h
      exact h
    exact absurd h2 (by simp)
  | some q =>
    obtain ⟨m1, s1, m2, s2⟩ := q
    rw [hm] at h
    dsimp only at h
    by_cases hle : m2 * 60 + s2 ≤ m1 * 60 + s1
    · rw [if_pos hle] at h
      have hcp : ParseErr.invalidRange c = ParseErr.invalidRange p := by simpa using h
      have hpc : p = c := by
        injection hcp with e
        exact e.symm
      refine ⟨hpc, ⟨m1, s1, m2, s2, matchTS_sound hm⟩, ?_⟩
      rintro ⟨m1', s1', m2', s2', hM', hlt⟩
      have h2 := matchTS_complete hM'
      rw [hm] at h2
      obtain ⟨e1, e2, e3, e4⟩ : m1 = m1' ∧ s1 = s1' ∧ m2 = m2' ∧ s2 = s2' := by
        simpa using h2
      omega
    · rw [if_neg hle] at h
      exact absurd h (by simp)

/-! ## Characterization of the parser loop -/

theorem parseClauses_fmt_iff {ps : List (List Char)} {p : List Char} :
    parseClauses ps = Except.error (ParseErr.invalidFormat p) ↔
      ∃ pre post, ps = pre ++ p :: post ∧ (∀ c ∈ pre, clauseOK c) ∧
        ¬ clauseFormatOK p := by
  induction ps with
  | nil =>
    constructor
    · intro h
      exact absurd h (by simp [parseClauses])
    · rintro ⟨pre, post, hps, _, _⟩
      exact absurd hps (by simp)
  | cons q ps ih =>
    constructor
    · intro h
      rw [parseClauses] at h
      cases hq : parseClause q with
      | error e =>
        rw [hq] at h
        dsimp only at h
        have he : e = ParseErr.invalidFormat p := by simpa using h
        subst he
        obtain ⟨hpq, hfmt⟩ := parseClause_fmt_elim hq
        subst hpq
        exact ⟨[], ps, rfl, by simp, hfmt⟩
      | ok r =>
        rw [hq] at h
        dsimp only at h
        cases hps : parseClauses ps with
        | error e =>
          rw [hps] at h
          dsimp only at h
          have he : e = ParseErr.invalidFormat p := by simpa using h
          subst he
          obtain ⟨pre, post, h1, h2, h3⟩ := ih.mp hps
          refine ⟨q :: pre, post, ?_, ?_, h3⟩
          · rw [h1]
            rfl
          · intro c hc
            rcases List.mem_cons.mp hc with rfl | hc'
            · exact clauseOK_of_parseClause_ok hq
            · exact h2 c hc'
        | ok rs =>
          rw [hps] at h
          dsimp only at h
          exact absurd h (by simp)
    · rintro ⟨pre, post, hps, hpre, hfmt⟩
      cases pre with
      | nil =>
        obtain ⟨e1, e2⟩ : q = p ∧ ps = post := by simpa using hps
        subst e2
        rw [parseClauses, e1, parseClause_fmt_of hfmt]
      | cons c0 pre' =>
        obtain ⟨e1, e2⟩ : q = c0 ∧ ps = pre' ++ p :: post := by simpa using hps
        subst e1
        obtain ⟨r, hr⟩ := parseClause_ok_of_clauseOK (hpre q (List.mem_cons_self _ _))
        rw [parseClauses, hr]
        dsimp only
        rw [ih.mpr ⟨pre', post, e2,
          fun c hc => hpre c (List.mem_cons_of_mem _ hc), hfmt⟩]

theorem parseClauses_rng_iff {ps : List (List Char)} {p : List Char} :
    parseClauses ps = Except.error (ParseErr.invalidRange p) ↔
      ∃ pre post, ps = pre ++ p :: post ∧ (∀ c ∈ pre, clauseOK c) ∧
        clauseFormatOK p ∧ ¬ clauseOK p := by
  induction ps with
  | nil =>
    constructor
    · intro h
      exact absurd h (by simp [parseClauses])
    · rintro ⟨pre, post, hps, _, _⟩
      exact absurd hps (by simp)
  | cons q ps ih =>
    constructor
    · intro h
      rw [parseClauses] at h
      cases hq : parseClause q with
      | error e =>
        rw [hq] at h
        dsimp only at h
        have he : e = ParseErr.invalidRange p := by simpa using h
        subst he
        obtain ⟨hpq, hfok, hnok⟩ := parseClause_rng_elim hq
        subst hpq
        exact ⟨[], ps, rfl, by simp, hfok, hnok⟩
      | ok r =>
        rw [hq] at h
        dsimp only at h
        cases hps : parseClauses ps with
        | error e =>
          rw [hps] at h
          dsimp only at h
          have he : e = ParseErr.invalidRange p := by simpa using h
          subst he
          obtain ⟨pre, post, h1, h2, h3, h4⟩ := ih.mp hps
          refine ⟨q :: pre, post, ?_, ?_, h3, h4⟩
          · rw [h1]
            rfl
          · intro c hc
            rcases List.mem_cons.mp hc with rfl | hc'
            · exact clauseOK_of_parseClause_ok hq
            · exact h2 c hc'
        | ok rs =>
          rw [hps] at h
          dsimp only at h
          exact absurd h (by simp)
    · rintro ⟨pre, post, hps, hpre, hfok, hnok⟩
      cases pre with
      | nil =>
        obtain ⟨e1, e2⟩ : q = p ∧ ps = post := by simpa using hps
        subst e2
        obtain ⟨m1, s1, m2, s2, hM⟩ := hfok
        have hge : m2 * 60 + s2 ≤ m1 * 60 + s1 := by
          by_contra hlt
          exact hnok ⟨m1, s1, m2, s2, hM, by omega⟩
        rw [parseClauses, e1, parseClause_rng_of hM hge]
      | cons c0 pre' =>
        obtain ⟨e1, e2⟩ : q = c0 ∧ ps = pre' ++ p :: post := by simpa using hps
        subst e1
        obtain ⟨r, hr⟩ := parseClause_ok_of_clauseOK (hpre q (List.mem_cons_self _ _))
        rw [parseClauses, hr]
        dsimp only
        rw [ih.mpr ⟨pre', post, e2,
          fun c hc => hpre c (List.mem_cons_of_mem _ hc), hfok, hnok⟩]

theorem parseClauses_ok_iff {ps : List (List Char)} {rs : List (Nat × Nat)} :
    parseClauses ps = Except.ok rs ↔
      List.Forall₂
        (fun c r => ∃ m1 s1 m2 s2, MatchesTS (stripChars c) m1 s1 m2 s2 ∧
          m1 * 60 + s1 < m2 * 60 + s2 ∧ r = (m1 * 60 + s1, m2 * 60 + s2))
        ps rs := by
  induction ps generalizing rs with
  | nil =>
    constructor
    · intro h
      have he : rs = [] := by
        have := h.symm
        simpa [parseClauses] using this
      subst he
      exact List.Forall₂.nil
    · intro h
      cases h
      rfl
  | cons q ps ih =>
    constructor
    · intro h
      rw [parseClauses] at h
      cases hq : parseClause q with
      | error e =>
        rw [hq] at h
        dsimp only at h
        exact absurd h (by simp)
      | ok r =>
        rw [hq] at h
        dsimp only at h
        cases hps : parseClauses ps with
        | error e =>
          rw [hps] at h
          dsimp only at h
          exact absurd h (by simp)
        | ok rs' =>
          rw [hps] at h
          dsimp only at h
          have he : r :: rs' = rs := by simpa using h
          subst he
          exact List.Forall₂.cons (parseClause_ok_elim hq) (ih.mp hps)
    · intro h
      rcases h with _ | ⟨hqr, htail⟩
      obtain ⟨m1, s1, m2, s2, hM, hlt, hr⟩ := hqr
      have hq : parseClause q = Except.ok _ := parseClause_ok_of hM hlt
      rw [parseClauses, hq]
      dsimp only
      rw [ih.mpr htail]
      rw [hr]

/-! ## Forall₂ helpers -/

theorem forall₂_exists_left {α β : Type} {R : α → β → Prop}
    {l1 : List α} {l2 : List β} (h : List.Forall₂ R l1 l2) :
    ∀ a ∈ l1, ∃ b, R a b := by
  induction h with
  | nil =>
    intro a ha
    exact absurd ha (by simp)
  | cons hab htail ih =>
    intro a ha
    rcases List.mem_cons.mp ha with rfl | ha'
    · exact ⟨_, hab⟩
    · exact ih a ha'

theorem forall₂_map_right {α β γ : Type} {R : α → β → Prop} {S : α → γ → Prop}
    {f : β → γ} (hRS : ∀ a b, R a b → S a (f b))
    {l1 : List α} {l2 : List β} (h : List.Forall₂ R l1 l2) :
    List.Forall₂ S l1 (l2.map f) := by
  induction h with
  | nil => exact List.Forall₂.nil
  | cons hab htail ih => exact List.Forall₂.cons (hRS _ _ hab) ih

/-! ## Claim theorems about the parser -/

/-- C2: for every input string that is a comma-separated list of clauses,
each matching the pattern minutes:seconds-minutes:seconds with end strictly
greater than start, `parse_ts_list` returns the ranges in the same order as
listed, each converted to seconds as
(minutes*60+seconds, minutes*60+seconds). -/
theorem parse_valid_comma_list (c0 : List Char) (cs : List (List Char))
    (qs : List ((Nat × Nat) × (Nat × Nat)))
    (h : List.Forall₂
      (fun c q => MatchesTS (stripChars c) q.1.1 q.1.2 q.2.1 q.2.2 ∧
        q.1.1 * 60 + q.1.2 < q.2.1 * 60 + q.2.2)
      (c0 :: cs) qs) :
    parse_ts_list (joinComma c0 cs) =
      Except.ok (qs.map (fun q => (q.1.1 * 60 + q.1.2, q.2.1 * 60 + q.2.2))) := by
  have hnc : ∀ p ∈ c0 :: cs, ',' ∉ p := by
    intro p hp
    obtain ⟨q, hq⟩ := forall₂_exists_left h p hp
    exact clause_no_comma ⟨q.1.1, q.1.2, q.2.1, q.2.2, hq.1⟩
  unfold parse_ts_list
  rw [splitComma_joinComma c0 cs hnc]
  exact parseClauses_ok_iff.mpr
    (forall₂_map_right
      (fun c q hq => ⟨q.1.1, q.1.2, q.2.1, q.2.2, hq.1, hq.2, rfl⟩) h)

/-- Witness for C2 at the spec's example:
`parse_ts_list "0:10-0:20, 1:00-1:05" = ok [(10, 20), (60, 65)]`. -/
theorem parse_valid_comma_list_witness :
    parse_ts_list (str ("0:10-0:20, 1:00-1:05")) =
      Except.ok [(10, 20), (60, 65)] := by
  have h := parse_valid_comma_list (str ("0:10-0:20")) [str (" 1:00-1:05")]
    [((0, 10), (0, 20)), ((1, 0), (1, 5))]
    (List.Forall₂.cons
      ⟨⟨[], str ("0"), str ("10"), str ("0"), str ("20"), [], by decide⟩, by decide⟩
      (List.Forall₂.cons
        ⟨⟨[], str ("1"), str ("00"), str ("1"), str ("05"), [], by decide⟩, by decide⟩
        List.Forall₂.nil))
  have hj : joinComma (str ("0:10-0:20")) [str (" 1:00-1:05")] =
      str ("0:10-0:20, 1:00-1:05") := by decide
  rw [hj] at h
  simpa using h

/-- C3 counterexample at input `"0:20-0:10, abc"`: the second comma-part
(` abc`) does not match the pattern, yet the parse does not fail with the
format error — it fails with the range error of the first part — so
"fails with InvalidFormat exactly when some clause does not match the
pattern" is false as stated. -/
theorem parse_error_claim_counterexample :
    (str (" abc") ∈ splitComma (str ("0:20-0:10, abc"))) ∧
    ¬ clauseFormatOK (str (" abc")) ∧
    parse_ts_list (str ("0:20-0:10, abc")) =
      Except.error (ParseErr.invalidRange (str ("0:20-0:10"))) := by
  refine ⟨by decide, ?_, rfl⟩
  rintro ⟨m1, s1, m2, s2, hM⟩
  have h := matchTS_complete hM
  rw [show matchTS (stripChars (str (" abc"))) = none from rfl] at h
  exact absurd h (by simp)

/-- C3 (amended): `parse_ts_list` fails with the format error carrying part
`p` exactly when `p` is the first invalid comma-part and its stripped form
does not match the pattern; it fails with the range error carrying `p`
exactly when `p` is the first invalid part, matches the pattern, but its
end is not strictly greater than its start; and a successful parse means
every part was valid — so the first invalid part aborts the whole parse
and a failure carries no partial result. -/
theorem parse_error_first_invalid (s : List Char) :
    (∀ p, (parse_ts_list s = Except.error (ParseErr.invalidFormat p) ↔
      ∃ pre post, splitComma s = pre ++ p :: post ∧ (∀ c ∈ pre, clauseOK c) ∧
        ¬ clauseFormatOK p)) ∧
    (∀ p, (parse_ts_list s = Except.error (ParseErr.invalidRange p) ↔
      ∃ pre post, splitComma s = pre ++ p :: post ∧ (∀ c ∈ pre, clauseOK c) ∧
        clauseFormatOK p ∧ ¬ clauseOK p)) ∧
    (∀ rs, parse_ts_list s = Except.ok rs → ∀ c ∈ splitComma s, clauseOK c) := by
  refine ⟨fun _ => parseClauses_fmt_iff, fun _ => parseClauses_rng_iff, ?_⟩
  intro rs h c hc
  obtain ⟨r, hr⟩ := forall₂_exists_left (parseClauses_ok_iff.mp h) c hc
  obtain ⟨m1, s1, m2, s2, hM, hlt, _⟩ := hr
  exact ⟨m1, s1, m2, s2, hM, hlt⟩

/-- C10: the parser places no upper bound on the seconds field — any single
clause matching the pattern with any numeric groups is accepted and folded
as minutes*60+seconds whenever end exceeds start. -/
theorem parse_no_seconds_bound (c : List Char) (m1 s1 m2 s2 : Nat)
    (hM : MatchesTS (stripChars c) m1 s1 m2 s2)
    (hlt : m1 * 60 + s1 < m2 * 60 + s2) :
    parse_ts_list c = Except.ok [(m1 * 60 + s1, m2 * 60 + s2)] := by
  have hnc : ',' ∉ c := clause_no_comma ⟨m1, s1, m2, s2, hM⟩
  unfold parse_ts_list
  rw [splitComma_no_comma hnc]
  rw [parseClauses, parseClause_ok_of hM hlt]
  rfl

/-- Witness for C10 at the claim's example:
`parse_ts_list "1:90-3:00" = ok [(150, 180)]` even though 90 is not a
valid seconds-of-minute value. -/
theorem parse_no_seconds_bound_witness :
    parse_ts_list (str ("1:90-3:00")) = Except.ok [(150, 180)] := by
  have h := parse_no_seconds_bound (str ("1:90-3:00")) 1 90 3 0
    ⟨[], str ("1"), str ("90"), str ("3"), str ("00"), [], by decide⟩
    (by decide)
  simpa using h

/-! ## Claim theorems about generated filenames -/

theorem token_take_eq {t t' r r' : List Char}
    (h8 : t.length = 8) (h8' : t'.length = 8)
    (h : t ++ r = t' ++ r') : t = t' := by
  have h2 := congrArg (List.take 8) h
  rwa [List.take_left' h8, List.take_left' h8'] at h2

/-- C1 counterexample: two pipeline runs with distinct fresh tokens but the
same source reference generate the same path for the acquired source file —
the download name is the video id plus extension and embeds no token — so
the claim that every generated filename embeds a fresh unique token (and
that two runs never produce the same path) is false. -/
theorem naming_claim_counterexample :
    tokA 0 ≠ tokB 0 ∧
    downloadName (str ("dQw4w9WgXcQ")) (str ("mp4")) ∈
      runPaths (str ("dQw4w9WgXcQ")) (str ("mp4")) tokA 1 ∧
    downloadName (str ("dQw4w9WgXcQ")) (str ("mp4")) ∈
      runPaths (str ("dQw4w9WgXcQ")) (str ("mp4")) tokB 1 := by
  refine ⟨by decide, ?_, ?_⟩ <;> exact List.mem_cons_self _ _

/-- C1 (amended): the cut-segment, manifest and final-artifact names embed
the run's fresh 8-character token, so two runs with distinct tokens never
share one of those paths; the acquired source file's name, however, is the
video id plus extension, so every run on the same source reference uses
the same download path. -/
theorem generated_name_uniqueness (t t' : List Char) (i i' : Nat)
    (h8 : t.length = 8) (h8' : t'.length = 8) (hne : t ≠ t') :
    cutName t i ≠ cutName t' i' ∧
    concatName t ≠ concatName t' ∧
    finalName t ≠ finalName t' ∧
    (∀ vid ext : List Char,
      downloadName vid ext ∈ runPaths vid ext (fun _ => t) 0 ∧
      downloadName vid ext ∈ runPaths vid ext (fun _ => t') 0) := by
  refine ⟨?_, ?_, ?_, fun vid ext => ⟨List.mem_cons_self _ _, List.mem_cons_self _ _⟩⟩
  · intro h
    rw [cutName, cutName] at h
    simp only [List.append_assoc] at h
    have h1 := congrArg (List.drop 4) h
    rw [List.drop_left' (by decide : (str ("cut_")).length = 4),
        List.drop_left' (by decide : (str ("cut_")).length = 4)] at h1
    exact hne (token_take_eq h8 h8' h1)
  · intro h
    rw [concatName, concatName] at h
    simp only [List.append_assoc] at h
    have h1 := congrArg (List.drop 7) h
    rw [List.drop_left' (by decide : (str ("concat_")).length = 7),
        List.drop_left' (by decide : (str ("concat_")).length = 7)] at h1
    exact hne (token_take_eq h8 h8' h1)
  · intro h
    rw [finalName, finalName] at h
    simp only [List.append_assoc] at h
    have h1 := congrArg (List.drop 5) h
    rw [List.drop_left' (by decide : (str ("clip_")).length = 5),
        List.drop_left' (by decide : (str ("clip_")).length = 5)] at h1
    exact hne (token_take_eq h8 h8' h1)

/-- Witness for the amended C1 at two concrete 8-character tokens. -/
theorem generated_name_uniqueness_witness :
    cutName (str ("aaaaaaaa")) 0 ≠ cutName (str ("bbbbbbbb")) 1 ∧
    concatName (str ("aaaaaaaa")) ≠ concatName (str ("bbbbbbbb")) ∧
    finalName (str ("aaaaaaaa")) ≠ finalName (str ("bbbbbbbb")) ∧
    (∀ vid ext : List Char,
      downloadName vid ext ∈ runPaths vid ext (fun _ => str ("aaaaaaaa")) 0 ∧
      downloadName vid ext ∈ runPaths vid ext (fun _ => str ("bbbbbbbb")) 0) :=
  generated_name_uniqueness _ _ 0 1 (by decide) (by decide) (by decide)

/-! ## Lemmas about the acquisition model -/

theorem pickLatest_some (acc : Option FileEntry) (f : FileEntry) :
    ∃ x, pickLatest acc f = some x ∧ (x = f ∨ acc = some x) ∧
      f.mtime ≤ x.mtime ∧ (∀ b, acc = some b → b.mtime ≤ x.mtime) := by
  match acc with
  | none => exact ⟨f, rfl, Or.inl rfl, le_refl _, by simp⟩
  | some b =>
    by_cases hlt : b.mtime < f.mtime
    · refine ⟨f, ?_, Or.inl rfl, le_refl _, ?_⟩
      · simp [pickLatest, hlt]
      · intro b' hb'
        obtain rfl : b = b' := by simpa using hb'
        exact le_of_lt hlt
    · refine ⟨b, ?_, Or.inr rfl, by omega, ?_⟩
      · simp [pickLatest, hlt]
      · intro b' hb'
        obtain rfl : b = b' := by simpa using hb'
        exact le_refl _

theorem foldl_pickLatest_sound :
    ∀ (l : List FileEntry) (acc : Option FileEntry) (r : FileEntry),
      l.foldl pickLatest acc = some r →
      (r ∈ l ∨ acc = some r) ∧ (∀ g ∈ l, g.mtime ≤ r.mtime) ∧
        (∀ b, acc = some b → b.mtime ≤ r.mtime) := by
  intro l
  induction l with
  | nil =>
    intro acc r h
    simp only [List.foldl_nil] at h
    refine ⟨Or.inr h, by simp, ?_⟩
    intro b hb
    rw [h] at hb
    obtain rfl : r = b := by simpa using hb
    exact le_refl _
  | cons f t ih =>
    intro acc r h
    rw [List.foldl_cons] at h
    obtain ⟨hmem, hall, hacc⟩ := ih (pickLatest acc f) r h
    obtain ⟨x, hx, hxor, hfx, hxacc⟩ := pickLatest_some acc f
    have hxr : x.mtime ≤ r.mtime := hacc x hx
    refine ⟨?_, ?_, ?_⟩
    · rcases hmem with hm | hm
      · exact Or.inl (List.mem_cons_of_mem f hm)
      · rw [hx] at hm
        obtain rfl : x = r := by simpa using hm
        rcases hxor with rfl | haccx
        · exact Or.inl (List.mem_cons_self _ _)
        · exact Or.inr haccx
    · intro g hg
      rcases List.mem_cons.mp hg with rfl | hg'
      · omega
      · exact hall g hg'
    · intro b hb
      have := hxacc b hb
      omega

theorem latestMp4_sound {l : List FileEntry} {f : FileEntry}
    (h : latestMp4 l = some f) :
    f ∈ l ∧ isMp4 f.name = true ∧
      ∀ g ∈ l, isMp4 g.name = true → g.mtime ≤ f.mtime := by
  unfold latestMp4 at h
  obtain ⟨hmem, hall, _⟩ := foldl_pickLatest_sound _ none f h
  rcases hmem with hm | hm
  · have h2 := List.mem_filter.mp hm
    refine ⟨h2.1, by simpa using h2.2, ?_⟩
    intro g hg hgm
    exact hall g (List.mem_filter.mpr ⟨hg, by simpa using hgm⟩)
  · exact absurd hm (by simp)

theorem fallback_unclassified {e : List Char} (env : DlEnv)
    (hc : classifyMatches e = false) :
    fallback env e =
      match env.attempt2 with
      | some _ => Except.error (exhaustedMsg e)
      | none =>
        match latestMp4 env.listing2 with
        | some f => Except.ok f
        | none => Except.error (exhaustedMsg e) := by
  rw [classifyMatches] at hc
  simp only [Bool.or_eq_false_iff] at hc
  obtain ⟨⟨⟨⟨h1, h2⟩, h3⟩, h4⟩, h5⟩ := hc
  unfold fallback
  simp [h1, h2, h3, h4, h5]

theorem fallback_error_or_ok (env : DlEnv) (e : List Char) :
    (∃ msg, fallback env e = Except.error msg) ∨
    (∃ f, fallback env e = Except.ok f ∧ latestMp4 env.listing2 = some f) := by
  unfold fallback
  by_cases hc1 : (containsStr (str ("429")) e ||
      containsStr (str ("Too Many Requests")) e) = true
  · rw [if_pos hc1]
    exact Or.inl ⟨_, rfl⟩
  · rw [if_neg hc1]
    by_cases hc2 : (containsStr (str ("content isn't available")) e ||
        containsStr (str ("This content isn't available")) e) = true
    · rw [if_pos hc2]
      exact Or.inl ⟨_, rfl⟩
    · rw [if_neg hc2]
      by_cases hc3 : containsStr (str ("Sign in to confirm you're not a bot")) e = true
      · rw [if_pos hc3]
        exact Or.inl ⟨_, rfl⟩
      · rw [if_neg hc3]
        cases h2 : env.attempt2 with
        | some x => exact Or.inl ⟨_, rfl⟩
        | none =>
          cases hl : latestMp4 env.listing2 with
          | some f => exact Or.inr ⟨f, rfl, rfl⟩
          | none => exact Or.inl ⟨_, rfl⟩

theorem fallback_ok {env : DlEnv} {e : List Char} {f : FileEntry}
    (h : fallback env e = Except.ok f) : latestMp4 env.listing2 = some f := by
  rcases fallback_error_or_ok env e with ⟨msg, hm⟩ | ⟨f', hf', hl⟩
  · rw [hm] at h
    exact absurd h (by simp)
  · rw [hf'] at h
    obtain rfl : f' = f := by simpa using h
    exact hl

theorem fallback_no_file {env : DlEnv} {e : List Char}
    (h2 : latestMp4 env.listing2 = none) :
    ∃ msg, fallback env e = Except.error msg := by
  rcases fallback_error_or_ok env e with ⟨msg, hm⟩ | ⟨f', hf', hl⟩
  · exact ⟨msg, hm⟩
  · rw [h2] at hl
    exact absurd hl (by simp)

/-! ## Claim theorems about the acquisition step -/

/-- C4 counterexample: with both attempts failing on unclassified errors
`boom1` and `boom2`, the single aggregated failure message contains the
first attempt's error but not the second attempt's, so the claim that the
message references every attempted strategy's failure is false. -/
theorem acquisition_aggregate_counterexample :
    download_youtube envBoth = Except.error (exhaustedMsg (str ("boom1"))) ∧
    containsStr (str ("boom1")) (exhaustedMsg (str ("boom1"))) = true ∧
    containsStr (str ("boom2")) (exhaustedMsg (str ("boom1"))) = false :=
  ⟨rfl, by decide, by decide⟩

/-- C4 (amended): when every attempt fails with an unclassified error, the
acquisition fails with one aggregated error whose message embeds the first
attempt's underlying error; the second attempt's error and the directory
state after it do not influence the message at all. -/
theorem acquisition_exhausted_first_error (e1 e2 e2' : List Char)
    (l1 l2 l2' : List FileEntry) (hc : classifyMatches e1 = false) :
    download_youtube ⟨some e1, l1, some e2, l2⟩ = Except.error (exhaustedMsg e1) ∧
    (∃ pre post, pre ++ e1 ++ post = exhaustedMsg e1) ∧
    download_youtube ⟨some e1, l1, some e2, l2⟩ =
      download_youtube ⟨some e1, l1, some e2', l2'⟩ := by
  have h1 : download_youtube ⟨some e1, l1, some e2, l2⟩ =
      Except.error (exhaustedMsg e1) := by
    unfold download_youtube
    dsimp only
    rw [fallback_unclassified _ hc]
  have h2 : download_youtube ⟨some e1, l1, some e2', l2'⟩ =
      Except.error (exhaustedMsg e1) := by
    unfold download_youtube
    dsimp only
    rw [fallback_unclassified _ hc]
  exact ⟨h1, ⟨str ("Unable to download video. Error: "),
    str (". Please try a different video or check if the URL is correct."), rfl⟩,
    by rw [h1, h2]⟩

/-- Witness for the amended C4 at concrete unclassified errors. -/
theorem acquisition_exhausted_first_error_witness :
    download_youtube ⟨some (str ("boom1")), [], some (str ("boom2")), []⟩ =
      Except.error (exhaustedMsg (str ("boom1"))) ∧
    (∃ pre post, pre ++ str ("boom1") ++ post = exhaustedMsg (str ("boom1"))) ∧
    download_youtube ⟨some (str ("boom1")), [], some (str ("boom2")), []⟩ =
      download_youtube
        ⟨some (str ("boom1")), [], some (str ("other stderr")), [⟨str ("x.mp4"), 1, 1⟩]⟩ :=
  acquisition_exhausted_first_error _ _ _ _ _ _ (by decide)

/-- C5 counterexample: with a zero-byte `v.mp4` in the shared downloads
directory, a successful tool exit is reported as a successful acquisition
of that empty file — non-emptiness is not part of the validation — so the
claim that success requires a non-empty file is false. -/
theorem acquisition_empty_file_counterexample :
    download_youtube envEmptyFile = Except.ok ⟨str ("v.mp4"), 10, 0⟩ ∧
    FileEntry.size ⟨str ("v.mp4"), 10, 0⟩ = 0 :=
  ⟨rfl, rfl⟩

/-- C5 (amended): a strategy's result is a success only if, after the tool
exits, some `.mp4` file is found in the downloads directory: any returned
file is a directory entry matched by the `*.mp4` glob (its existence and
extension are validated, but not its non-emptiness), and when neither
observation of the directory yields an `.mp4` the call fails. -/
theorem acquisition_validation (env : DlEnv) (f : FileEntry) :
    (download_youtube env = Except.ok f →
      isMp4 f.name = true ∧ (f ∈ env.listing1 ∨ f ∈ env.listing2)) ∧
    (latestMp4 env.listing1 = none → latestMp4 env.listing2 = none →
      ∃ msg, download_youtube env = Except.error msg) := by
  constructor
  · intro h
    unfold download_youtube at h
    cases ha : env.attempt1 with
    | some e =>
      rw [ha] at h
      dsimp only at h
      obtain ⟨hm, hmp, _⟩ := latestMp4_sound (fallback_ok h)
      exact ⟨hmp, Or.inr hm⟩
    | none =>
      rw [ha] at h
      dsimp only at h
      cases hl : latestMp4 env.listing1 with
      | some f' =>
        rw [hl] at h
        dsimp only at h
        obtain rfl : f' = f := by simpa using h
        obtain ⟨hm, hmp, _⟩ := latestMp4_sound hl
        exact ⟨hmp, Or.inl hm⟩
      | none =>
        rw [hl] at h
        dsimp only at h
        obtain ⟨hm, hmp, _⟩ := latestMp4_sound (fallback_ok h)
        exact ⟨hmp, Or.inr hm⟩
  · intro hl1 hl2
    unfold download_youtube
    cases ha : env.attempt1 with
    | some e =>
      dsimp only
      exact fallback_no_file hl2
    | none =>
      dsimp only
      rw [hl1]
      exact fallback_no_file hl2

/-- Witness for the amended C5: the success side at a concrete environment
whose listing holds `v.mp4`, and the failure side at a concrete environment
with no `.mp4` anywhere. -/
theorem acquisition_validation_witness :
    (isMp4 (FileEntry.name ⟨str ("v.mp4"), 10, 0⟩) = true ∧
      ((⟨str ("v.mp4"), 10, 0⟩ : FileEntry) ∈ envEmptyFile.listing1 ∨
        (⟨str ("v.mp4"), 10, 0⟩ : FileEntry) ∈ envEmptyFile.listing2)) ∧
    (∃ msg, download_youtube envBoth = Except.error msg) :=
  ⟨(acquisition_validation envEmptyFile ⟨str ("v.mp4"), 10, 0⟩).1 rfl,
   (acquisition_validation envBoth ⟨[], 0, 0⟩).2 rfl rfl⟩

/-- C9: when the download tool exits zero, the acquisition step returns
exactly the first-listed most-recently-modified `.mp4` entry of the shared
downloads directory at that moment; the listing is an arbitrary input, so
the returned file may be pre-existing or concurrently produced rather than
created by this invocation. -/
theorem acquisition_returns_latest (env : DlEnv) (f : FileEntry)
    (h1 : env.attempt1 = none) (h2 : latestMp4 env.listing1 = some f) :
    download_youtube env = Except.ok f ∧ f ∈ env.listing1 ∧
      isMp4 f.name = true ∧
      ∀ g ∈ env.listing1, isMp4 g.name = true → g.mtime ≤ f.mtime := by
  obtain ⟨hm, hmp, hmax⟩ := latestMp4_sound h2
  refine ⟨?_, hm, hmp, hmax⟩
  unfold download_youtube
  rw [h1]
  dsimp only
  rw [h2]

/-- Witness for C9 at a listing whose newest `.mp4` (`old.mp4`) pre-exists
and was not produced by the observed invocation. -/
theorem acquisition_returns_latest_witness :
    download_youtube envPreexisting = Except.ok ⟨str ("old.mp4"), 999, 7⟩ ∧
    (⟨str ("old.mp4"), 999, 7⟩ : FileEntry) ∈ envPreexisting.listing1 ∧
    isMp4 (FileEntry.name ⟨str ("old.mp4"), 999, 7⟩) = true ∧
    ∀ g ∈ envPreexisting.listing1, isMp4 g.name = true →
      g.mtime ≤ FileEntry.mtime ⟨str ("old.mp4"), 999, 7⟩ :=
  acquisition_returns_latest envPreexisting ⟨str ("old.mp4"), 999, 7⟩ rfl (by decide)

/-! ## Lemmas about the cut/concat model -/

theorem cutLoop_ok_eq (src : List Char) (tok : Nat → List Char) (env : CutEnv) :
    ∀ (segs : List (Nat × Nat)) (i : Nat),
      (∀ j, j < segs.length → env.extractOk (i + j) = true) →
      cutLoop src tok env segs i =
        ((List.enumFrom i segs).map
          (fun p => Event.extract p.2.1 p.2.2 src (cutName (tok p.1) p.1)),
         Except.ok ((List.enumFrom i segs).map (fun p => cutName (tok p.1) p.1))) := by
  intro segs
  induction segs with
  | nil => intro i h; rfl
  | cons sg rest ih =>
    intro i h
    obtain ⟨st, en⟩ := sg
    have h0 : env.extractOk i = true := by
      have h2 := h 0 (by simp)
      simpa using h2
    have hr := ih (i + 1) (fun j hj => by
      have h2 := h (j + 1) (by simpa using Nat.succ_lt_succ hj)
      have e : i + (j + 1) = i + 1 + j := by omega
      rwa [e] at h2)
    rw [cutLoop]
    dsimp only
    rw [if_pos h0, hr]
    simp [List.enumFrom_cons, Except.map]

theorem cut_and_concat_ok_parts (src : List Char) (segs : List (Nat × Nat))
    (tok : Nat → List Char) (env : CutEnv)
    (hex : ∀ i, i < segs.length → env.extractOk i = true) :
    (cut_and_concat src segs tok env).1 =
      (List.enumFrom 0 segs).map
        (fun p => Event.extract p.2.1 p.2.2 src (cutName (tok p.1) p.1)) ++
      [Event.writeManifest (concatName (tok segs.length))
        (manifestContents
          ((List.enumFrom 0 segs).map (fun p => cutName (tok p.1) p.1))),
       Event.concatRun (concatName (tok segs.length))
        (finalName (tok (segs.length + 1)))] ∧
    (cut_and_concat src segs tok env).2 =
      (if env.concatOk then Except.ok (finalName (tok (segs.length + 1)))
       else Except.error env.concatErr) := by
  have hc := cutLoop_ok_eq src tok env segs 0 (fun j hj => by
    rw [Nat.zero_add]
    exact hex j hj)
  unfold cut_and_concat
  rw [hc]
  dsimp only
  cases hco : env.concatOk <;> simp [hco]

theorem foldl_fileStep_extract_only (p : List Char) :
    ∀ (l : List Event) (st : Bool),
      (∀ ev ∈ l, ∃ a b s o, ev = Event.extract a b s o) →
      l.foldl (fileStep p) st = st := by
  intro l
  induction l with
  | nil => intro st _; rfl
  | cons ev t ih =>
    intro st h
    obtain ⟨a, b, s, o, rfl⟩ := h ev (List.mem_cons_self _ _)
    rw [List.foldl_cons]
    exact ih st (fun e he => h e (List.mem_cons_of_mem _ he))

/-! ## Claim theorems about the cut/concat step -/

/-- C6 counterexample: after a fully successful run the concat manifest
file written for the join still exists — the source never deletes it — so
the claim that the manifest no longer exists after the step returns is
false. -/
theorem manifest_persists_counterexample :
    existsAfter (cut_and_concat (str ("src.mp4")) [(10, 20)] tokA cutEnvAllOk).1
      (concatName (tokA 1)) = true ∧
    (cut_and_concat (str ("src.mp4")) [(10, 20)] tokA cutEnvAllOk).2 =
      Except.ok (finalName (tokA 2)) :=
  ⟨rfl, rfl⟩

/-- C6 (amended): on a non-zero join result the step fails with an error
carrying the join tool's diagnostic output, and on a zero result it
returns the final artifact; in both cases the manifest file written for
the join is never deleted and still exists after the step returns. -/
theorem concat_manifest_lifetime (src : List Char) (segs : List (Nat × Nat))
    (tok : Nat → List Char) (env : CutEnv)
    (hex : ∀ i, i < segs.length → env.extractOk i = true) :
    existsAfter (cut_and_concat src segs tok env).1
      (concatName (tok segs.length)) = true ∧
    (env.concatOk = false →
      (cut_and_concat src segs tok env).2 = Except.error env.concatErr) ∧
    (env.concatOk = true →
      (cut_and_concat src segs tok env).2 =
        Except.ok (finalName (tok (segs.length + 1)))) := by
  obtain ⟨h1, h2⟩ := cut_and_concat_ok_parts src segs tok env hex
  refine ⟨?_, ?_, ?_⟩
  · rw [h1]
    unfold existsAfter
    rw [List.foldl_append]
    have hext : ∀ ev ∈ (List.enumFrom 0 segs).map
        (fun p => Event.extract p.2.1 p.2.2 src (cutName (tok p.1) p.1)),
        ∃ a b s o, ev = Event.extract a b s o := by
      intro ev hev
      simp only [List.mem_map] at hev
      obtain ⟨q, _, rfl⟩ := hev
      exact ⟨_, _, _, _, rfl⟩
    rw [foldl_fileStep_extract_only _ _ _ hext]
    simp [fileStep]
  · intro hco
    rw [h2, if_neg (by simp [hco])]
  · intro hco
    rw [h2, if_pos hco]

/-- Witness for the amended C6 at a concrete run whose join fails. -/
theorem concat_manifest_lifetime_witness :
    existsAfter (cut_and_concat (str ("src.mp4")) [(10, 20)] tokA cutEnvConcatFails).1
      (concatName (tokA 1)) = true ∧
    (cutEnvConcatFails.concatOk = false →
      (cut_and_concat (str ("src.mp4")) [(10, 20)] tokA cutEnvConcatFails).2 =
        Except.error cutEnvConcatFails.concatErr) ∧
    (cutEnvConcatFails.concatOk = true →
      (cut_and_concat (str ("src.mp4")) [(10, 20)] tokA cutEnvConcatFails).2 =
        Except.ok (finalName (tokA 2))) :=
  concat_manifest_lifetime (str ("src.mp4")) [(10, 20)] tokA cutEnvConcatFails
    (fun _ _ => rfl)

/-- C7: for every source file and list of N ranges (each extraction
exiting zero), the step invokes the extraction tool exactly once per input
range, in input-list order, bounded to that range, and writes exactly one
manifest whose contents list the N cut paths in that same input order. -/
theorem extraction_and_manifest_order (src : List Char) (segs : List (Nat × Nat))
    (tok : Nat → List Char) (env : CutEnv)
    (hex : ∀ i, i < segs.length → env.extractOk i = true) :
    extractEvents (cut_and_concat src segs tok env).1 =
      (List.enumFrom 0 segs).map
        (fun p => (p.2.1, p.2.2, src, cutName (tok p.1) p.1)) ∧
    manifestsOf (cut_and_concat src segs tok env).1 =
      [(concatName (tok segs.length),
        manifestContents
          ((List.enumFrom 0 segs).map (fun p => cutName (tok p.1) p.1)))] := by
  obtain ⟨h1, _⟩ := cut_and_concat_ok_parts src segs tok env hex
  constructor
  · rw [h1]
    unfold extractEvents
    rw [List.filterMap_append, List.filterMap_map]
    have hg : ((fun ev =>
        match ev with
        | Event.extract a b s o => some (a, b, s, o)
        | _ => none) ∘
          (fun p : Nat × Nat × Nat =>
            Event.extract p.2.1 p.2.2 src (cutName (tok p.1) p.1))) =
        some ∘ (fun p : Nat × Nat × Nat =>
          (p.2.1, p.2.2, src, cutName (tok p.1) p.1)) := by
      funext p
      rfl
    rw [hg, List.filterMap_eq_map]
    rw [show (List.filterMap (fun ev =>
        match ev with
        | Event.extract a b s o => some (a, b, s, o)
        | _ => none)
        [Event.writeManifest (concatName (tok segs.length))
          (manifestContents
            ((List.enumFrom 0 segs).map (fun p => cutName (tok p.1) p.1))),
         Event.concatRun (concatName (tok segs.length))
          (finalName (tok (segs.length + 1)))]) = [] from rfl]
    rw [List.append_nil]
  · rw [h1]
    unfold manifestsOf
    rw [List.filterMap_append]
    rw [List.filterMap_eq_nil_iff.mpr (by
      intro ev hev
      simp only [List.mem_map] at hev
      obtain ⟨q, _, rfl⟩ := hev
      rfl)]
    rw [List.nil_append]
    rfl

/-- Witness for C7 at a concrete two-range run. -/
theorem extraction_and_manifest_order_witness :
    extractEvents
        (cut_and_concat (str ("src.mp4")) [(10, 20), (60, 65)] tokA cutEnvAllOk).1 =
      (List.enumFrom 0 [(10, 20), (60, 65)]).map
        (fun p => (p.2.1, p.2.2, str ("src.mp4"), cutName (tokA p.1) p.1)) ∧
    manifestsOf
        (cut_and_concat (str ("src.mp4")) [(10, 20), (60, 65)] tokA cutEnvAllOk).1 =
      [(concatName (tokA 2),
        manifestContents
          ((List.enumFrom 0 [(10, 20), (60, 65)]).map
            (fun p => cutName (tokA p.1) p.1)))] :=
  extraction_and_manifest_order (str ("src.mp4")) [(10, 20), (60, 65)] tokA
    cutEnvAllOk (fun _ _ => rfl)

/-! ## Claim theorems about the command runner -/

/-- C8 counterexample: the invocation record of a representative external
command carries no timeout — `subprocess.run` is called without a timeout
argument, so its default `None` applies — hence the claim that every
invocation runs under an enforced bounded timeout is false. -/
theorem run_no_timeout_counterexample :
    (run_call (str ("ffmpeg -y -f concat -safe 0 -i list.txt -c copy out.mp4"))).timeoutSeconds
      = none :=
  rfl

/-- C8 (amended): the command runner executes every invocation with no
timeout at all (the subprocess timeout argument is `None`), capturing
stderr; it reports a non-zero exit as a failure carrying the captured
stderr and a zero exit as success. The runner therefore cannot terminate a
hung process — no bound is enforced. -/
theorem run_invocation_spec (cmd stderr : List Char) (ec : Nat) :
    (run_call cmd).timeoutSeconds = none ∧
    (run_call cmd).stderrPiped = true ∧
    (run_call cmd).cmdLine = cmd ∧
    (ec ≠ 0 → runResult ec stderr = Except.error stderr) ∧
    runResult 0 stderr = Except.ok () := by
  refine ⟨rfl, rfl, rfl, ?_, rfl⟩
  intro h
  rw [runResult, if_pos h]

/-- Witness for the amended C8 at a concrete command and exit code 1. -/
theorem run_invocation_spec_witness :
    (run_call (str ("yt-dlp url"))).timeoutSeconds = none ∧
    (run_call (str ("yt-dlp url"))).stderrPiped = true ∧
    (run_call (str ("yt-dlp url"))).cmdLine = str ("yt-dlp url") ∧
    runResult 1 (str ("boom")) = Except.error (str ("boom")) ∧
    runResult 0 (str ("boom")) = Except.ok () := by
  have h := run_invocation_spec (str ("yt-dlp url")) (str ("boom")) 1
  exact ⟨h.1, h.2.1, h.2.2.1, h.2.2.2.1 (by decide), h.2.2.2.2⟩

end VideoCutter
